import Mathlib

/-!
Verification development for amplifier-foundation.

Shallow embedding of the repository's file-source resolution
(amplifier_foundation/sources/file.py), mention resolution
(amplifier_foundation/mentions/resolver.py), content deduplication
(amplifier_foundation/mentions/deduplicator.py), and the bundle registry
graph maintenance (registry.py, modelled from the specification since only
its tests ship with the embedded sources).

Filesystem paths are modelled as lists of name components for the file
source handler (mirroring pathlib's lexical component operations) and as
raw strings for the mention resolver (which only ever concatenates and
probes for existence). The filesystem itself, home-directory expansion and
the cryptographic hash are ambient parameters of the corresponding
functions, since they are external to the repository's code.
-/

namespace AmplifierFoundation

/-- Filesystem entry kind: a path on disk is either a regular file or a
directory. -/
inductive FType where
  | file
  | dir
deriving DecidableEq, Repr

/-- A filesystem model for the file source handler: maps a path, given as its
list of name components, to its entry kind, or to none when nothing exists
there. Paths are compared lexically, mirroring pathlib's lexical operations. -/
def FS : Type := List String → Option FType

/-- str.startswith at the character level; same semantics as
String.startsWith, stated over the underlying character lists. -/
def strStartsWith (s pre : String) : Bool := pre.data.isPrefixOf s.data

/-- Splitting a character list on the path separator, accumulator-style;
same semantics as str.split("/"): empty pieces are kept. -/
def splitSlashAux : List Char → List Char → List (List Char)
  | [], acc => [acc.reverse]
  | c :: rest, acc =>
    if c = '/' then acc.reverse :: splitSlashAux rest []
    else splitSlashAux rest (c :: acc)

/-- Splitting a path string on the separator (str.split("/")). -/
def splitSlash (s : String) : List String :=
  (splitSlashAux s.data []).map (fun cs => String.mk cs)

/-- str.__contains__ for a single character, at the character level. -/
def strContains (s : String) (c : Char) : Bool := s.data.contains c

/-- The longest prefix of a string whose characters satisfy the predicate. -/
def strTakeWhile (p : Char → Bool) (s : String) : String :=
  String.mk (s.data.takeWhile p)

/-- The remainder of a string after its longest prefix satisfying the
predicate. -/
def strDropWhile (p : Char → Bool) (s : String) : String :=
  String.mk (s.data.dropWhile p)

/-- The string with its first n characters removed. -/
def strDrop (s : String) (n : Nat) : String := String.mk (s.data.drop n)

/-- Components of a path string: split on the separator, dropping empty and
single-dot components exactly as pathlib PurePath construction does.
Double-dot components are kept, since pathlib keeps them until resolve(). -/
def comps (s : String) : List String :=
  (splitSlash s).filter (fun c => c != "" && c != ".")

/-- Whether a path string is absolute (begins with the separator), as
pathlib's is_absolute on POSIX. -/
def isAbs (s : String) : Bool := strStartsWith s "/"

/-- Collapse double-dot components against their prefix, as Path.resolve()
does once a path is absolute (a leading double-dot at the root is dropped). -/
def normalize (l : List String) : List String :=
  l.foldl (fun acc c => if c = ".." then acc.dropLast else acc ++ [c]) []

/-- First-match lookup in an association list; models lookup in a Python dict
whose keys are unique (dicts preserve insertion order, as these lists do). -/
def alistGet {α : Type} (k : String) : List (String × α) → Option α
  | [] => none
  | (k2, v) :: rest => if k2 = k then some v else alistGet k rest

/-- Replace the value of the first entry carrying the given key, keeping its
position, or append a new entry when the key is absent; models assignment to
a Python dict key. -/
def alistSet {α : Type} (k : String) (v : α) : List (String × α) → List (String × α)
  | [] => [(k, v)]
  | (k2, v2) :: rest => if k2 = k then (k2, v) :: rest else (k2, v2) :: alistSet k v rest

/-- Modelled from the spec: ParsedURI (paths/resolution.py is not among the
embedded sources). Only the fields FileSourceHandler.resolve reads are kept:
the path and the optional subdirectory fragment. -/
structure ParsedURI where
  path : String
  subpath : Option String
deriving DecidableEq, Repr

/-- Modelled from the spec: ResolvedSource (paths/resolution.py is not among
the embedded sources): the selected local path and the detected source root,
both as component lists. -/
structure ResolvedSource where
  active_path : List String
  source_root : List String
deriving DecidableEq, Repr

/-- Modelled from the spec: BundleNotFoundError (exceptions.py is not among
the embedded sources); it carries the missing path reported in the message. -/
inductive SourceError where
  | bundleNotFound : List String → SourceError
deriving DecidableEq, Repr

/-- Model of pathlib relative_to: succeeds with the remaining components when
the base is a lexical prefix of the path, fails (ValueError) otherwise. -/
def relTo : List String → List String → Option (List String)
  | p, [] => some p
  | [], _ :: _ => none
  | x :: xs, b :: bs => if x = b then relTo xs bs else none

namespace FileSourceHandler

/-- Embeds the path-resolution step of FileSourceHandler.resolve (file.py
lines 40-48): a string starting with "./" or "../" is joined onto the
handler's base_path; any other string becomes Path(path_str), which
resolve() interprets against the process working directory when relative.
base_path and cwd are absolute component lists. -/
def resolvePathStr (base_path cwd : List String) (path_str : String) : List String :=
  if strStartsWith path_str "./" || strStartsWith path_str "../" then
    normalize (base_path ++ comps path_str)
  else if isAbs path_str then
    normalize (comps path_str)
  else
    normalize (cwd ++ comps path_str)

/-- The final active path computed by FileSourceHandler.resolve (file.py
lines 50-53): the resolved path with the subdirectory fragment joined onto
it (an absolute fragment replaces it, as pathlib join does). -/
def activePathOf (base_path cwd : List String) (parsed : ParsedURI) : List String :=
  let resolved_path := resolvePathStr base_path cwd parsed.path
  match parsed.subpath with
  | some sub => if isAbs sub then comps sub else resolved_path ++ comps sub
  | none => resolved_path

/-- Embeds FileSourceHandler._find_source_root (file.py lines 66-102). -/
def find_source_root (fs : FS) (active_path cache_dir : List String) : List String :=
  match relTo active_path (normalize cache_dir) with
  | some (repo_folder :: _) => normalize cache_dir ++ [repo_folder]
  | _ =>
    if fs active_path = some FType.file then active_path.dropLast else active_path

/-- Embeds FileSourceHandler.resolve (file.py lines 27-64). -/
def resolve (fs : FS) (base_path cwd : List String) (parsed : ParsedURI)
    (cache_dir : List String) : Except SourceError ResolvedSource :=
  let active_path := activePathOf base_path cwd parsed
  if (fs active_path).isSome then
    Except.ok { active_path := active_path
                source_root := find_source_root fs active_path cache_dir }
  else
    Except.error (SourceError.bundleNotFound active_path)

end FileSourceHandler

/-- A bundle as seen by the mention resolver: only resolve_context_path is
ever consulted. Modelled from the spec: Bundle (bundle.py is not among the
embedded sources), so resolve_context_path is kept abstract as a function
from a context name to an optional path. -/
structure Bundle where
  resolve_context_path : String → Option String

/-- Model of pathlib joining for the CWD-relative branch of the mention
resolver: Path(cwd) / body, where an absolute right operand replaces the
left operand entirely. -/
def joinPath (cwd body : String) : String :=
  if strStartsWith body "/" then body else cwd ++ "/" ++ body

namespace BaseMentionResolver

/-- Embeds BaseMentionResolver.resolve (resolver.py lines 39-78). The
registered bundle map is an association list; the ambient filesystem is a
predicate on path strings and home-directory expansion is an abstract
function, both external to the repository's code. -/
def resolve (bundles : List (String × Bundle)) (pathExists : String → Bool)
    (expanduser : String → String) (cwd : String) (mention : String) : Option String :=
  if !(strStartsWith mention "@") then none
  else
    let mention_body := strDrop mention 1
    if strContains mention_body ':' then
      let ns := strTakeWhile (· != ':') mention_body
      let name := strDrop (strDropWhile (· != ':') mention_body) 1
      match alistGet ns bundles with
      | some bundle => bundle.resolve_context_path name
      | none => none
    else
      let path :=
        if strStartsWith mention_body "~" then expanduser mention_body
        else joinPath cwd mention_body
      let path_md :=
        if strStartsWith mention_body "~" then expanduser (mention_body ++ ".md")
        else joinPath cwd (mention_body ++ ".md")
      if pathExists path then some path
      else if pathExists path_md then some path_md
      else none

end BaseMentionResolver

/-- State of ContentDeduplicator (deduplicator.py lines 22-25):
insertion-ordered maps from content hash to the content itself and to the
list of paths that produced it, as association lists. -/
structure ContentDeduplicator where
  content_by_hash : List (String × String)
  paths_by_hash : List (String × List String)
deriving DecidableEq, Repr

namespace ContentDeduplicator

/-- The freshly initialized deduplicator (deduplicator.py lines 22-25). -/
def empty : ContentDeduplicator := ⟨[], []⟩

/-- Embeds ContentDeduplicator.add_file (deduplicator.py lines 27-49). The
SHA-256 hex digest of the UTF-8 encoding (hashlib, external to the
repository) is abstracted as the function h. The dict access on the
duplicate branch is modelled with a default: in Python it presumes the two
dicts share their key set, an invariant of every state the API can build. -/
def add_file (h : String → String) (d : ContentDeduplicator) (path content : String) :
    Bool × ContentDeduplicator :=
  let content_hash := h content
  match alistGet content_hash d.content_by_hash with
  | none =>
    (true, { content_by_hash := alistSet content_hash content d.content_by_hash
             paths_by_hash := alistSet content_hash [path] d.paths_by_hash })
  | some _ =>
    let ps := (alistGet content_hash d.paths_by_hash).getD []
    if path ∈ ps then (false, d)
    else (false, { d with paths_by_hash := alistSet content_hash (ps ++ [path]) d.paths_by_hash })

/-- A deduplicated context file (mentions/models.py, summarized by the spec):
the content, its hash, and every path that produced it. -/
structure ContextFile where
  content : String
  content_hash : String
  paths : List String
deriving DecidableEq, Repr

/-- Embeds ContentDeduplicator.get_unique_files (deduplicator.py lines
51-65). -/
def get_unique_files (d : ContentDeduplicator) : List ContextFile :=
  d.content_by_hash.map (fun e =>
    { content := e.2, content_hash := e.1
      paths := (alistGet e.1 d.paths_by_hash).getD [] })

/-- Embeds ContentDeduplicator.is_seen (deduplicator.py lines 67-77). -/
def is_seen (h : String → String) (d : ContentDeduplicator) (content : String) : Bool :=
  (alistGet (h content) d.content_by_hash).isSome

/-- Embeds ContentDeduplicator.get_known_hashes (deduplicator.py lines
79-85), keeping insertion order rather than forming a set. -/
def get_known_hashes (d : ContentDeduplicator) : List String :=
  d.content_by_hash.map (·.1)

/-- Run a sequence of add_file calls against the empty deduplicator; each
element of the list is a (path, content) pair. -/
def runAdds (h : String → String) (adds : List (String × String)) : ContentDeduplicator :=
  adds.foldl (fun d pc => (add_file h d pc.1 pc.2).2) empty

/-- The path list the deduplicator currently holds for the hash of the given
content (empty when the hash is unknown). -/
def pathsFor (h : String → String) (d : ContentDeduplicator) (content : String) : List String :=
  (alistGet (h content) d.paths_by_hash).getD []

end ContentDeduplicator

/-- First-occurrence deduplication of a list, preserving first-seen order. -/
def dedupKeepFirst (l : List String) : List String :=
  l.foldl (fun acc x => if x ∈ acc then acc else acc ++ [x]) []

/-- Modelled from the spec: BundleState (registry.py is not among the
embedded sources): the source URI used to register the bundle and the
include / included-by edge lists of the dependency graph. -/
structure BundleState where
  source : String
  includes : List String
  included_by : List String
deriving DecidableEq, Repr

/-- Modelled from the spec: the BundleRegistry dependency graph, an
insertion-ordered association list from bundle name to its state. -/
structure BundleRegistry where
  states : List (String × BundleState)
deriving DecidableEq, Repr

namespace BundleRegistry

/-- Modelled from the spec: the per-child cleanup step of unregister — if the
child is registered, remove the unregistered name from its included_by list;
otherwise leave the graph unchanged (tolerating partial graphs). -/
def pruneIncludedBy (name : String) (acc : List (String × BundleState)) (child : String) :
    List (String × BundleState) :=
  match alistGet child acc with
  | none => acc
  | some cst =>
    alistSet child { cst with included_by := cst.included_by.filter (· != name) } acc

/-- Modelled from the spec: the per-parent cleanup step of unregister — if
the parent is registered, remove the unregistered name from its includes
list; otherwise leave the graph unchanged (tolerating partial graphs). -/
def pruneIncludes (name : String) (acc : List (String × BundleState)) (par : String) :
    List (String × BundleState) :=
  match alistGet par acc with
  | none => acc
  | some pst =>
    alistSet par { pst with includes := pst.includes.filter (· != name) } acc

/-- Modelled from the spec: BundleRegistry.unregister (registry.py is not
among the embedded sources). Removes the named state if present and returns
true, else returns false with the registry untouched; on removal it prunes
the unregistered name from each listed child's included_by list and from
each listed parent's includes list, skipping names that are not registered. -/
def unregister (reg : BundleRegistry) (name : String) : Bool × BundleRegistry :=
  match alistGet name reg.states with
  | none => (false, reg)
  | some st =>
    let states1 := reg.states.filter (fun e => e.1 != name)
    let states2 := st.includes.foldl (pruneIncludedBy name) states1
    let states3 := st.included_by.foldl (pruneIncludes name) states2
    (true, ⟨states3⟩)

end BundleRegistry

/-- The sequence of content hashes an add sequence produces, in call order. -/
def hashesOf (h : String → String) (adds : List (String × String)) : List String :=
  adds.map (fun pc => h pc.2)

/-- Declarative path attribution: the paths of all adds whose content hashes
to the given value, in first-seen order and without duplicates. -/
def pathsAt (h : String → String) (adds : List (String × String)) (ch : String) : List String :=
  dedupKeepFirst ((adds.filter (fun pc => h pc.2 == ch)).map (·.1))

/-- Concrete filesystem fixture: a repository /repo with subdirectory
/repo/a/b, lying outside the cache directory /cache. -/
def fsRepo : FS := fun p =>
  if p = ["repo"] then some FType.dir
  else if p = ["repo", "a"] then some FType.dir
  else if p = ["repo", "a", "b"] then some FType.dir
  else none

/-- Concrete filesystem fixture: a repository cached at /cache/repo2 with
subdirectory a/b. -/
def fsCached : FS := fun p =>
  if p = ["cache", "repo2", "a", "b"] then some FType.dir else none

/-- Concrete filesystem fixture: a single directory /a. -/
def fsDirA : FS := fun p => if p = ["a"] then some FType.dir else none

/-- Concrete registry fixture mirroring the unregister-cleanup test: a parent
including child-a and child-b, both of which point back at the parent. -/
def regParent : BundleRegistry :=
  ⟨[("parent", { source := "src", includes := ["child-a", "child-b"], included_by := [] }),
    ("child-a", { source := "src", includes := [], included_by := ["parent"] }),
    ("child-b", { source := "src", includes := [], included_by := ["parent"] })]⟩

/-- Concrete bundle-map fixture: a single bundle named docs whose context
paths live under ctx/. -/
def bundlesDocs : List (String × Bundle) :=
  [("docs", { resolve_context_path := fun n => some ("ctx/" ++ n) })]

/-- Association-list lookup after setting the same key yields the new value. -/
theorem alistGet_set_self {α : Type} (k : String) (v : α) (l : List (String × α)) :
    alistGet k (alistSet k v l) = some v := by
  induction l with
  | nil => simp [alistGet, alistSet]
  | cons e rest ih =>
    obtain ⟨k2, v2⟩ := e
    by_cases h : k2 = k
    · subst h
      simp [alistGet, alistSet]
    · simp [alistGet, alistSet, h, ih]

/-- Association-list lookup is unchanged by setting a different key. -/
theorem alistGet_set_ne {α : Type} {k k2 : String} (h : k2 ≠ k) (v : α) :
    ∀ l : List (String × α), alistGet k (alistSet k2 v l) = alistGet k l
  | [] => by simp [alistGet, alistSet, h]
  | (k3, v3) :: rest => by
    by_cases h3 : k3 = k2
    · subst h3
      simp only [alistSet, if_pos rfl]
      simp [alistGet, h]
    · simp only [alistSet, if_neg h3]
      by_cases hk : k3 = k
      · simp [alistGet, hk]
      · simp [alistGet, hk, alistGet_set_ne h v rest]

/-- Setting an absent key appends the new entry at the end. -/
theorem alistSet_of_get_none {α : Type} (k : String) (v : α) :
    ∀ l : List (String × α), alistGet k l = none → alistSet k v l = l ++ [(k, v)]
  | [], _ => by simp [alistSet]
  | (k2, v2) :: rest, hnone => by
    by_cases h : k2 = k
    · simp only [alistGet, if_pos h] at hnone
      exact absurd hnone (by simp)
    · simp only [alistGet, if_neg h] at hnone
      simp [alistSet, h, alistSet_of_get_none k v rest hnone]

/-- Association-list lookup fails exactly when the key is absent. -/
theorem alistGet_eq_none_iff {α : Type} (k : String) :
    ∀ l : List (String × α), alistGet k l = none ↔ k ∉ l.map (·.1)
  | [] => by simp [alistGet]
  | (k2, v2) :: rest => by
    by_cases h : k2 = k
    · subst h
      simp [alistGet]
    · simp [alistGet, h, alistGet_eq_none_iff k rest, Ne.symm h]

/-- Association-list lookup succeeds exactly when the key is present. -/
theorem alistGet_isSome_iff {α : Type} (k : String) (l : List (String × α)) :
    (alistGet k l).isSome = true ↔ k ∈ l.map (·.1) := by
  rw [Option.isSome_iff_ne_none, ne_eq, alistGet_eq_none_iff]
  exact not_not

/-- Characterization of the relative_to model: it succeeds with remainder r
exactly when the path is the base extended by r. -/
theorem relTo_eq_some_iff : ∀ p base r : List String, relTo p base = some r ↔ p = base ++ r
  | p, [], r => by simp [relTo]
  | [], b :: bs, r => by simp [relTo]
  | x :: xs, b :: bs, r => by
    simp only [relTo]
    by_cases hx : x = b
    · subst hx
      simp [relTo_eq_some_iff xs bs r]
    · simp [hx]

/-- Membership in the dedup fold: an element is in the result exactly when it
is in the accumulator or in the remaining input. -/
theorem mem_foldl_dedup (x : String) :
    ∀ (l acc : List String),
      x ∈ l.foldl (fun acc2 y => if y ∈ acc2 then acc2 else acc2 ++ [y]) acc
        ↔ x ∈ acc ∨ x ∈ l
  | [], acc => by simp
  | y :: ys, acc => by
    rw [List.foldl_cons, mem_foldl_dedup x ys]
    by_cases hy : y ∈ acc
    · simp only [if_pos hy, List.mem_cons]
      constructor
      · rintro (h | h)
        · exact Or.inl h
        · exact Or.inr (Or.inr h)
      · rintro (h | h | h)
        · exact Or.inl h
        · exact Or.inl (h ▸ hy)
        · exact Or.inr h
    · simp only [if_neg hy, List.mem_append, List.mem_cons, List.mem_singleton]
      tauto

/-- First-occurrence deduplication preserves membership. -/
theorem mem_dedupKeepFirst (x : String) (l : List String) :
    x ∈ dedupKeepFirst l ↔ x ∈ l := by
  rw [dedupKeepFirst, mem_foldl_dedup]
  simp

/-- Unfolding of first-occurrence deduplication over a one-element extension. -/
theorem dedupKeepFirst_append (l : List String) (x : String) :
    dedupKeepFirst (l ++ [x]) =
      if x ∈ dedupKeepFirst l then dedupKeepFirst l else dedupKeepFirst l ++ [x] := by
  rw [dedupKeepFirst, List.foldl_append]
  rfl

/-- Every list extends its own dropLast. -/
theorem dropLast_extends (l : List String) : ∃ t, l = l.dropLast ++ t := by
  cases l with
  | nil => exact ⟨[], rfl⟩
  | cons x xs =>
    exact ⟨[(x :: xs).getLast (by simp)], (List.dropLast_append_getLast (by simp)).symm⟩

/-- The detected source root is always the active path or a lexical ancestor
of it, whichever branch of the detection fires. -/
theorem find_source_root_within (fs : FS) (active_path cache_dir : List String) :
    ∃ t, active_path = FileSourceHandler.find_source_root fs active_path cache_dir ++ t := by
  unfold FileSourceHandler.find_source_root
  cases hrel : relTo active_path (normalize cache_dir) with
  | none =>
    simp only [hrel]
    by_cases hf : fs active_path = some FType.file
    · simpa [hf] using dropLast_extends active_path
    · exact ⟨[], by simp [hf]⟩
  | some rel =>
    cases rel with
    | nil =>
      simp only [hrel]
      by_cases hf : fs active_path = some FType.file
      · simpa [hf] using dropLast_extends active_path
      · exact ⟨[], by simp [hf]⟩
    | cons r rest =>
      have hap := (relTo_eq_some_iff active_path (normalize cache_dir) (r :: rest)).mp hrel
      simp only [hrel]
      exact ⟨rest, by rw [hap]; simp⟩

/-- C9: resolve fails with BundleNotFoundError naming the final active path
(the resolved path with the subdirectory fragment joined on) exactly when
that path does not exist on disk, and returns a ResolvedSource exactly when
it does. -/
theorem c9_resolve_error_iff_active_path_missing (fs : FS) (base_path cwd : List String)
    (parsed : ParsedURI) (cache_dir : List String) :
    (FileSourceHandler.resolve fs base_path cwd parsed cache_dir
        = Except.error (SourceError.bundleNotFound
            (FileSourceHandler.activePathOf base_path cwd parsed))
      ↔ fs (FileSourceHandler.activePathOf base_path cwd parsed) = none)
    ∧ ((∃ r, FileSourceHandler.resolve fs base_path cwd parsed cache_dir = Except.ok r)
      ↔ (fs (FileSourceHandler.activePathOf base_path cwd parsed)).isSome = true) := by
  simp only [FileSourceHandler.resolve]
  cases h : fs (FileSourceHandler.activePathOf base_path cwd parsed) <;> simp [h]

/-- C10: a relative path string carrying no "./" or "../" marker resolves
against the process working directory; the handler's configured base path is
ignored for it (only "./"- and "../"-prefixed strings use the base path). -/
theorem c10_plain_relative_ignores_base_path (base_path base_path2 cwd : List String)
    (path_str : String)
    (h1 : strStartsWith path_str "./" = false)
    (h2 : strStartsWith path_str "../" = false)
    (h3 : isAbs path_str = false) :
    FileSourceHandler.resolvePathStr base_path cwd path_str = normalize (cwd ++ comps path_str)
    ∧ FileSourceHandler.resolvePathStr base_path cwd path_str
        = FileSourceHandler.resolvePathStr base_path2 cwd path_str := by
  unfold FileSourceHandler.resolvePathStr
  rw [h1, h2, h3]
  simp

/-- C10 witness: the plain relative string foo/bar resolves against the
working directory, for two different configured base paths. -/
theorem c10_witness :
    FileSourceHandler.resolvePathStr ["base"] ["cwd"] "foo/bar"
        = normalize (["cwd"] ++ comps "foo/bar")
    ∧ FileSourceHandler.resolvePathStr ["base"] ["cwd"] "foo/bar"
        = FileSourceHandler.resolvePathStr ["elsewhere"] ["cwd"] "foo/bar" :=
  c10_plain_relative_ignores_base_path ["base"] ["elsewhere"] ["cwd"] "foo/bar"
    (by decide) (by decide) (by decide)

/-- C4: every ResolvedSource produced by resolve satisfies the invariant that
active_path equals source_root or is a descendant of it (source_root is a
component-wise prefix of active_path). -/
theorem c4_active_path_within_source_root (fs : FS) (base_path cwd cache_dir : List String)
    (parsed : ParsedURI) (r : ResolvedSource)
    (h : FileSourceHandler.resolve fs base_path cwd parsed cache_dir = Except.ok r) :
    ∃ t, r.active_path = r.source_root ++ t := by
  simp only [FileSourceHandler.resolve] at h
  by_cases hex : (fs (FileSourceHandler.activePathOf base_path cwd parsed)).isSome
  · rw [if_pos hex] at h
    injection h with h2
    subst h2
    exact find_source_root_within fs (FileSourceHandler.activePathOf base_path cwd parsed)
      cache_dir
  · rw [if_neg hex] at h
    simp at h

/-- C4 witness: resolving the existing directory /a against cache /cache
yields a ResolvedSource whose source root is a prefix of its active path. -/
theorem c4_witness :
    ∃ t, (ResolvedSource.mk ["a"] ["a"]).active_path
      = (ResolvedSource.mk ["a"] ["a"]).source_root ++ t :=
  c4_active_path_within_source_root fsDirA ["b"] ["c"] ["cache"]
    { path := "/a", subpath := none } (ResolvedSource.mk ["a"] ["a"]) rfl

/-- C1 counterexample: for the repository /repo with existing subdirectory
a/b lying outside the cache directory /cache, resolving
file:///repo#subdirectory=a/b yields source_root equal to the subdirectory
/repo/a/b, not to the repository root /repo, refuting the claim as stated. -/
theorem c1_counterexample :
    FileSourceHandler.resolve fsRepo ["base"] ["cwd"]
        { path := "/repo", subpath := some "a/b" } ["cache"]
      = Except.ok { active_path := ["repo", "a", "b"], source_root := ["repo", "a", "b"] }
    ∧ (["repo", "a", "b"] : List String) ≠ ["repo"] :=
  ⟨rfl, by decide⟩

/-- C1 amended: resolving file://repoRoot#subdirectory=sub with an existing
active path yields source_root equal to repoRoot when repoRoot lies directly
under the cache directory; when the active path lies outside the cache
directory and is a directory, source_root is the subdirectory (the active
path) itself, not repoRoot. -/
theorem c1_source_root_amended (fs : FS) (base_path cwd cache_dir repoRoot : List String)
    (path_str sub : String)
    (hpath : FileSourceHandler.resolvePathStr base_path cwd path_str = repoRoot)
    (hrelsub : isAbs sub = false)
    (hex : (fs (repoRoot ++ comps sub)).isSome = true) :
    (∀ r : String, normalize cache_dir = cache_dir → repoRoot = cache_dir ++ [r] →
      FileSourceHandler.resolve fs base_path cwd { path := path_str, subpath := some sub }
          cache_dir
        = Except.ok { active_path := repoRoot ++ comps sub, source_root := repoRoot })
    ∧ ((∀ t, repoRoot ++ comps sub ≠ normalize cache_dir ++ t) →
      fs (repoRoot ++ comps sub) = some FType.dir →
      FileSourceHandler.resolve fs base_path cwd { path := path_str, subpath := some sub }
          cache_dir
        = Except.ok { active_path := repoRoot ++ comps sub
                      source_root := repoRoot ++ comps sub }) := by
  have hap : FileSourceHandler.activePathOf base_path cwd
      { path := path_str, subpath := some sub } = repoRoot ++ comps sub := by
    simp [FileSourceHandler.activePathOf, hrelsub, hpath]
  constructor
  · intro r hnorm hroot
    have hrel : relTo (repoRoot ++ comps sub) (normalize cache_dir)
        = some (r :: comps sub) := by
      rw [relTo_eq_some_iff, hnorm, hroot]
      simp
    simp only [FileSourceHandler.resolve, hap, hex, if_pos]
    simp only [FileSourceHandler.find_source_root, hrel]
    rw [hroot, hnorm]
  · intro hout hdir
    have hrel : relTo (repoRoot ++ comps sub) (normalize cache_dir) = none := by
      cases h2 : relTo (repoRoot ++ comps sub) (normalize cache_dir) with
      | none => rfl
      | some t =>
        exact absurd ((relTo_eq_some_iff _ _ _).mp h2) (hout t)
    simp only [FileSourceHandler.resolve, hap, hex, if_pos]
    simp only [FileSourceHandler.find_source_root, hrel, hdir]
    simp

/-- C1 witness: the amended statement at two concrete filesystems — a
repository cached at /cache/repo2 reports the repository root, and the
uncached repository /repo reports the subdirectory itself. -/
theorem c1_witness :
    FileSourceHandler.resolve fsCached ["base"] ["cwd"]
        { path := "/cache/repo2", subpath := some "a/b" } ["cache"]
      = Except.ok { active_path := ["cache", "repo2", "a", "b"]
                    source_root := ["cache", "repo2"] }
    ∧ FileSourceHandler.resolve fsRepo ["base"] ["cwd"]
        { path := "/repo", subpath := some "a/b" } ["cache"]
      = Except.ok { active_path := ["repo", "a", "b"], source_root := ["repo", "a", "b"] } := by
  constructor
  · have h := (c1_source_root_amended fsCached ["base"] ["cwd"] ["cache"] ["cache", "repo2"]
      "/cache/repo2" "a/b" (by decide) (by decide) (by decide)).1 "repo2" (by decide) rfl
    exact h.trans rfl
  · have h := (c1_source_root_amended fsRepo ["base"] ["cwd"] ["cache"] ["repo"]
      "/repo" "a/b" (by decide) (by decide) (by decide)).2
      (by
        intro t ht
        rw [show normalize ["cache"] = ["cache"] from rfl] at ht
        have h2 := congrArg List.head? ht
        simp at h2)
      (by decide)
    exact h.trans rfl

/-- C5: for a mention whose body contains a colon, resolve splits at the
first colon into a namespace and a name; a registered namespace delegates to
that bundle's resolve_context_path on the name, and an unregistered
namespace yields none, with a result independent of the filesystem, of
home-directory expansion and of the working directory — filesystem
resolution is never attempted. -/
theorem c5_namespace_dispatch (bundles : List (String × Bundle))
    (pathExists pathExists2 : String → Bool) (expanduser expanduser2 : String → String)
    (cwd cwd2 : String) (mention : String)
    (h0 : strStartsWith mention "@" = true)
    (h1 : strContains (strDrop mention 1) ':' = true) :
    (∀ b, alistGet (strTakeWhile (· != ':') (strDrop mention 1)) bundles = some b →
      BaseMentionResolver.resolve bundles pathExists expanduser cwd mention
        = b.resolve_context_path (strDrop (strDropWhile (· != ':') (strDrop mention 1)) 1))
    ∧ (alistGet (strTakeWhile (· != ':') (strDrop mention 1)) bundles = none →
      BaseMentionResolver.resolve bundles pathExists expanduser cwd mention = none
      ∧ BaseMentionResolver.resolve bundles pathExists expanduser cwd mention
        = BaseMentionResolver.resolve bundles pathExists2 expanduser2 cwd2 mention) := by
  constructor
  · intro b hb
    simp [BaseMentionResolver.resolve, h0, h1, hb]
  · intro hb
    constructor
    · simp [BaseMentionResolver.resolve, h0, h1, hb]
    · simp [BaseMentionResolver.resolve, h0, h1, hb]

/-- C5 witness: @docs:guide delegates to the registered docs bundle while
@nope:guide resolves to none under two unrelated filesystems. -/
theorem c5_witness :
    BaseMentionResolver.resolve bundlesDocs (fun _ => true) id "/cwd" "@docs:guide"
      = some "ctx/guide"
    ∧ BaseMentionResolver.resolve bundlesDocs (fun _ => true) id "/cwd" "@nope:guide" = none
    ∧ BaseMentionResolver.resolve bundlesDocs (fun _ => true) id "/cwd" "@nope:guide"
      = BaseMentionResolver.resolve bundlesDocs (fun _ => false) (fun s => s) "/other"
          "@nope:guide" := by
  refine ⟨?_, ?_, ?_⟩
  · have h := (c5_namespace_dispatch bundlesDocs (fun _ => true) (fun _ => true) id id
      "/cwd" "/cwd" "@docs:guide" (by decide) (by decide)).1
      { resolve_context_path := fun n => some ("ctx/" ++ n) } rfl
    exact h.trans rfl
  · exact ((c5_namespace_dispatch bundlesDocs (fun _ => true) (fun _ => false) id
      (fun s => s) "/cwd" "/other" "@nope:guide" (by decide) (by decide)).2 rfl).1
  · exact ((c5_namespace_dispatch bundlesDocs (fun _ => true) (fun _ => false) id
      (fun s => s) "/cwd" "/other" "@nope:guide" (by decide) (by decide)).2 rfl).2

/-- C6: for a colon-free mention body, resolve returns the first existing
candidate of [exact path, exact path plus a .md suffix], where the exact
path is home-expanded for a body starting with a tilde and joined onto the
working directory otherwise; with no existing candidate it returns none
(the function is total, so no exception is possible). -/
theorem c6_filesystem_fallback (bundles : List (String × Bundle))
    (pathExists : String → Bool) (expanduser : String → String)
    (cwd : String) (mention : String)
    (h0 : strStartsWith mention "@" = true)
    (h1 : strContains (strDrop mention 1) ':' = false) :
    BaseMentionResolver.resolve bundles pathExists expanduser cwd mention
      = ([if strStartsWith (strDrop mention 1) "~" = true then expanduser (strDrop mention 1)
          else joinPath cwd (strDrop mention 1),
          if strStartsWith (strDrop mention 1) "~" = true
          then expanduser (strDrop mention 1 ++ ".md")
          else joinPath cwd (strDrop mention 1 ++ ".md")].find? pathExists) := by
  simp only [BaseMentionResolver.resolve, h0, h1]
  cases hp : pathExists (if strStartsWith (strDrop mention 1) "~" = true
      then expanduser (strDrop mention 1) else joinPath cwd (strDrop mention 1)) <;>
    cases hpmd : pathExists (if strStartsWith (strDrop mention 1) "~" = true
      then expanduser (strDrop mention 1 ++ ".md")
      else joinPath cwd (strDrop mention 1 ++ ".md")) <;>
    simp [List.find?, hp, hpmd]

/-- C6 witness: resolving @notes when only /cwd/notes.md exists on disk
returns /cwd/notes.md via the markdown-suffix fallback. -/
theorem c6_witness :
    BaseMentionResolver.resolve [] (fun s => s == "/cwd/notes.md") id "/cwd" "@notes"
      = some "/cwd/notes.md" := by
  have h := c6_filesystem_fallback [] (fun s => s == "/cwd/notes.md") id "/cwd" "@notes"
    (by decide) (by decide)
  exact h.trans (by decide)

namespace ContentDeduplicator

/-- The returned flag of add_file is true exactly when the content hash was
unseen. -/
theorem add_file_fst (h : String → String) (d : ContentDeduplicator) (p c : String) :
    (add_file h d p c).1 = !(is_seen h d c) := by
  simp only [add_file, is_seen]
  cases hg : alistGet (h c) d.content_by_hash with
  | none => simp
  | some v =>
    by_cases hp : p ∈ (alistGet (h c) d.paths_by_hash).getD [] <;> simp [hp]

/-- The path list add_file leaves behind for the added content: a fresh
hash records exactly the new path; a seen hash appends the path only when
it is not already present. -/
theorem add_file_pathsFor (h : String → String) (d : ContentDeduplicator) (p c : String) :
    pathsFor h (add_file h d p c).2 c =
      (if is_seen h d c = true then
        (if p ∈ pathsFor h d c then pathsFor h d c else pathsFor h d c ++ [p])
       else [p]) := by
  simp only [add_file, is_seen, pathsFor]
  cases hg : alistGet (h c) d.content_by_hash with
  | none => simp [alistGet_set_self]
  | some v =>
    by_cases hp : p ∈ (alistGet (h c) d.paths_by_hash).getD []
    · simp [hp]
    · simp [hp, alistGet_set_self]

/-- After add_file the added content is always seen. -/
theorem is_seen_add_file_self (h : String → String) (d : ContentDeduplicator) (p c : String) :
    is_seen h (add_file h d p c).2 c = true := by
  simp only [add_file, is_seen]
  cases hg : alistGet (h c) d.content_by_hash with
  | none => simp [alistGet_set_self]
  | some v =>
    by_cases hp : p ∈ (alistGet (h c) d.paths_by_hash).getD [] <;> simp [hp, hg]

/-- After add_file the added path is among the paths of the added content. -/
theorem mem_pathsFor_add_file (h : String → String) (d : ContentDeduplicator) (p c : String) :
    p ∈ pathsFor h (add_file h d p c).2 c := by
  rw [add_file_pathsFor]
  by_cases hs : is_seen h d c = true
  · by_cases hp : p ∈ pathsFor h d c
    · simp [hs, hp]
    · simp [hs, hp]
  · simp [hs]

end ContentDeduplicator

/-- C2: add_file returns true and records paths = [p] when the content hash
is unseen; when the hash is seen it returns false and appends p only if p
is not already tracked, so re-adding the same path under the same content
never changes the path list again. -/
theorem c2_add_file_dedup (h : String → String) (d : ContentDeduplicator) (p c : String) :
    (ContentDeduplicator.add_file h d p c).1 = !(ContentDeduplicator.is_seen h d c)
    ∧ ContentDeduplicator.pathsFor h (ContentDeduplicator.add_file h d p c).2 c =
        (if ContentDeduplicator.is_seen h d c = true then
          (if p ∈ ContentDeduplicator.pathsFor h d c then ContentDeduplicator.pathsFor h d c
           else ContentDeduplicator.pathsFor h d c ++ [p])
         else [p])
    ∧ ContentDeduplicator.pathsFor h
        (ContentDeduplicator.add_file h (ContentDeduplicator.add_file h d p c).2 p c).2 c
      = ContentDeduplicator.pathsFor h (ContentDeduplicator.add_file h d p c).2 c := by
  refine ⟨ContentDeduplicator.add_file_fst h d p c,
    ContentDeduplicator.add_file_pathsFor h d p c, ?_⟩
  rw [ContentDeduplicator.add_file_pathsFor]
  simp [ContentDeduplicator.is_seen_add_file_self,
    ContentDeduplicator.mem_pathsFor_add_file]

/-- Unfolding a run of adds over a one-element extension. -/
theorem runAdds_append (h : String → String) (adds : List (String × String))
    (pc : String × String) :
    ContentDeduplicator.runAdds h (adds ++ [pc])
      = (ContentDeduplicator.add_file h (ContentDeduplicator.runAdds h adds) pc.1 pc.2).2 := by
  simp [ContentDeduplicator.runAdds, List.foldl_append]

/-- The hash trace of a one-element extension. -/
theorem hashesOf_append (h : String → String) (adds : List (String × String))
    (pc : String × String) :
    hashesOf h (adds ++ [pc]) = hashesOf h adds ++ [h pc.2] := by
  simp [hashesOf]

/-- Adding content with a different hash leaves a hash's attribution alone. -/
theorem pathsAt_append_ne (h : String → String) (adds : List (String × String))
    (pc : String × String) (ch : String) (hne : ¬ h pc.2 = ch) :
    pathsAt h (adds ++ [pc]) ch = pathsAt h adds ch := by
  have hb : (h pc.2 == ch) = false := beq_eq_false_iff_ne.mpr hne
  simp [pathsAt, List.filter_append, List.filter, hb]

/-- Adding content extends its own hash's attribution by the new path,
unless that path is already credited. -/
theorem pathsAt_append_self (h : String → String) (adds : List (String × String))
    (pc : String × String) :
    pathsAt h (adds ++ [pc]) (h pc.2) =
      if pc.1 ∈ pathsAt h adds (h pc.2) then pathsAt h adds (h pc.2)
      else pathsAt h adds (h pc.2) ++ [pc.1] := by
  have hf : List.filter (fun x => h x.2 == h pc.2) [pc] = [pc] := by simp
  rw [pathsAt, List.filter_append, hf, List.map_append]
  simp only [List.map_cons, List.map_nil]
  rw [dedupKeepFirst_append]
  rfl

/-- A hash that never occurs in the trace has an empty attribution. -/
theorem pathsAt_eq_nil_of_not_mem (h : String → String) (adds : List (String × String))
    (ch : String) (hnm : ch ∉ hashesOf h adds) : pathsAt h adds ch = [] := by
  have hf : adds.filter (fun pc => h pc.2 == ch) = [] := by
    rw [List.filter_eq_nil_iff]
    intro a ha
    simp only [beq_iff_eq]
    intro hh
    exact hnm (List.mem_map.mpr ⟨a, ha, hh⟩)
  rw [pathsAt, hf]
  rfl

/-- State characterization of a run of adds: the recorded hashes are the
first-seen deduplication of the hash trace, every recorded hash maps to its
declarative attribution, and no other hash is mapped. -/
theorem runAdds_spec (h : String → String) (adds : List (String × String)) :
    (ContentDeduplicator.runAdds h adds).content_by_hash.map (·.1)
        = dedupKeepFirst (hashesOf h adds)
    ∧ (∀ ch, ch ∈ (ContentDeduplicator.runAdds h adds).content_by_hash.map (·.1) →
        alistGet ch (ContentDeduplicator.runAdds h adds).paths_by_hash
          = some (pathsAt h adds ch))
    ∧ (∀ ch, ch ∉ (ContentDeduplicator.runAdds h adds).content_by_hash.map (·.1) →
        alistGet ch (ContentDeduplicator.runAdds h adds).paths_by_hash = none) := by
  induction adds using List.reverseRecOn with
  | nil =>
    refine ⟨rfl, ?_, ?_⟩
    · intro ch hch
      simp [ContentDeduplicator.runAdds, ContentDeduplicator.empty] at hch
    · intro ch hch
      simp [ContentDeduplicator.runAdds, ContentDeduplicator.empty, alistGet]
  | append_singleton adds pc ih =>
    obtain ⟨ih1, ih2, ih3⟩ := ih
    rw [runAdds_append]
    set d := ContentDeduplicator.runAdds h adds with hd
    cases hg : alistGet (h pc.2) d.content_by_hash with
    | none =>
      have hkeys : (h pc.2) ∉ d.content_by_hash.map (·.1) := (alistGet_eq_none_iff _ _).mp hg
      have hnotdedup : (h pc.2) ∉ dedupKeepFirst (hashesOf h adds) := ih1 ▸ hkeys
      have hnotold : (h pc.2) ∉ hashesOf h adds := fun hmem =>
        hnotdedup ((mem_dedupKeepFirst _ _).mpr hmem)
      simp only [ContentDeduplicator.add_file, hg]
      have hcontent : alistSet (h pc.2) pc.2 d.content_by_hash
          = d.content_by_hash ++ [(h pc.2, pc.2)] := alistSet_of_get_none _ _ _ hg
      refine ⟨?_, ?_, ?_⟩
      · rw [hcontent, List.map_append, ih1, hashesOf_append, dedupKeepFirst_append,
          if_neg hnotdedup]
        simp
      · intro ch hch
        rw [hcontent, List.map_append] at hch
        rcases List.mem_append.mp hch with hch1 | hch2
        · have hne : h pc.2 ≠ ch := fun he => hkeys (he ▸ hch1)
          rw [alistGet_set_ne hne, ih2 ch hch1, pathsAt_append_ne h adds pc ch hne]
        · have hche : ch = h pc.2 := by simpa using hch2
          subst hche
          rw [alistGet_set_self, pathsAt_append_self,
            pathsAt_eq_nil_of_not_mem h adds _ hnotold]
          simp
      · intro ch hch
        rw [hcontent, List.map_append] at hch
        have hch1 : ch ∉ d.content_by_hash.map (·.1) := fun hm =>
          hch (List.mem_append.mpr (Or.inl hm))
        have hne : h pc.2 ≠ ch := fun he =>
          hch (List.mem_append.mpr (Or.inr (by simp [he])))
        rw [alistGet_set_ne hne]
        exact ih3 ch hch1
    | some v =>
      have hkeys : (h pc.2) ∈ d.content_by_hash.map (·.1) := by
        rw [← alistGet_isSome_iff, hg]
        rfl
      have hdedup : (h pc.2) ∈ dedupKeepFirst (hashesOf h adds) := ih1 ▸ hkeys
      have hps : alistGet (h pc.2) d.paths_by_hash = some (pathsAt h adds (h pc.2)) :=
        ih2 _ hkeys
      have hpsD : (alistGet (h pc.2) d.paths_by_hash).getD [] = pathsAt h adds (h pc.2) := by
        rw [hps]
        rfl
      simp only [ContentDeduplicator.add_file, hg]
      by_cases hp : pc.1 ∈ (alistGet (h pc.2) d.paths_by_hash).getD []
      · rw [if_pos hp]
        refine ⟨?_, ?_, ?_⟩
        · rw [ih1, hashesOf_append, dedupKeepFirst_append, if_pos hdedup]
        · intro ch hch
          by_cases hce : h pc.2 = ch
          · subst hce
            rw [hps, pathsAt_append_self, if_pos (hpsD ▸ hp)]
          · rw [ih2 ch hch, pathsAt_append_ne h adds pc ch hce]
        · intro ch hch
          exact ih3 ch hch
      · rw [if_neg hp]
        refine ⟨?_, ?_, ?_⟩
        · rw [ih1, hashesOf_append, dedupKeepFirst_append, if_pos hdedup]
        · intro ch hch
          by_cases hce : h pc.2 = ch
          · subst hce
            rw [alistGet_set_self, pathsAt_append_self, if_neg (hpsD ▸ hp), hpsD]
          · rw [alistGet_set_ne hce, ih2 ch hch, pathsAt_append_ne h adds pc ch hce]
        · intro ch hch
          have hne : h pc.2 ≠ ch := fun he => hch (he ▸ hkeys)
          rw [alistGet_set_ne hne]
          exact ih3 ch hch

/-- The dedup fold preserves freedom from duplicates. -/
theorem nodup_foldl_dedup :
    ∀ (l acc : List String), acc.Nodup →
      (l.foldl (fun acc2 y => if y ∈ acc2 then acc2 else acc2 ++ [y]) acc).Nodup
  | [], _, ha => ha
  | y :: ys, acc, ha => by
    rw [List.foldl_cons]
    by_cases hy : y ∈ acc
    · rw [if_pos hy]
      exact nodup_foldl_dedup ys acc ha
    · rw [if_neg hy]
      exact nodup_foldl_dedup ys (acc ++ [y]) (by simp [List.nodup_append, ha, hy])

/-- First-occurrence deduplication produces a duplicate-free list. -/
theorem nodup_dedupKeepFirst (l : List String) : (dedupKeepFirst l).Nodup :=
  nodup_foldl_dedup l [] List.nodup_nil

/-- C7: after any sequence of add_file calls, get_unique_files lists the
distinct content hashes in first-seen order without repetition (one entry
per distinct hash), and each entry carries exactly the paths that produced
that content, in first-seen order and without duplicates. -/
theorem c7_get_unique_files (h : String → String) (adds : List (String × String)) :
    ((ContentDeduplicator.runAdds h adds).get_unique_files).map (·.content_hash)
        = dedupKeepFirst (hashesOf h adds)
    ∧ (∀ cf ∈ (ContentDeduplicator.runAdds h adds).get_unique_files,
        cf.paths = pathsAt h adds cf.content_hash)
    ∧ (((ContentDeduplicator.runAdds h adds).get_unique_files).map
        (·.content_hash)).Nodup := by
  obtain ⟨h1, h2, h3⟩ := runAdds_spec h adds
  have hmap : ((ContentDeduplicator.runAdds h adds).get_unique_files).map (·.content_hash)
      = (ContentDeduplicator.runAdds h adds).content_by_hash.map (·.1) := by
    simp [ContentDeduplicator.get_unique_files, List.map_map]
  refine ⟨hmap.trans h1, ?_, ?_⟩
  · intro cf hcf
    simp only [ContentDeduplicator.get_unique_files, List.mem_map] at hcf
    obtain ⟨e, he, rfl⟩ := hcf
    have hkey : e.1 ∈ (ContentDeduplicator.runAdds h adds).content_by_hash.map (·.1) :=
      List.mem_map.mpr ⟨e, he, rfl⟩
    have hpk := h2 e.1 hkey
    simp [hpk]
  · rw [hmap.trans h1]
    exact nodup_dedupKeepFirst _

/-- C7 witness: adding x from p1 and p2 and y from p3 yields the hash trace
deduplicated to two entries, and x is credited to p1 and p2 in order. -/
theorem c7_witness :
    ((ContentDeduplicator.runAdds id
        [("p1", "x"), ("p2", "x"), ("p3", "y")]).get_unique_files).map (·.content_hash)
      = ["x", "y"]
    ∧ pathsAt id [("p1", "x"), ("p2", "x"), ("p3", "y")] "x" = ["p1", "p2"] := by
  have hc := c7_get_unique_files id [("p1", "x"), ("p2", "x"), ("p3", "y")]
  refine ⟨hc.1.trans (by decide), ?_⟩
  have hp := hc.2.1 (ContentDeduplicator.ContextFile.mk "x" "x" ["p1", "p2"]) (by decide)
  exact hp.symm

/-- C8: is_seen reports true exactly when some earlier add_file call supplied
the same content under some path, given an injective (collision-free) hash;
the model of is_seen returns only a flag and no state, so it cannot mutate
the deduplicator. -/
theorem c8_is_seen_iff (h : String → String) (hinj : Function.Injective h)
    (adds : List (String × String)) (c : String) :
    ContentDeduplicator.is_seen h (ContentDeduplicator.runAdds h adds) c = true
      ↔ ∃ p, (p, c) ∈ adds := by
  obtain ⟨h1, -, -⟩ := runAdds_spec h adds
  rw [ContentDeduplicator.is_seen, alistGet_isSome_iff, h1, mem_dedupKeepFirst]
  simp only [hashesOf]
  constructor
  · intro hm
    obtain ⟨pc, hpc, he⟩ := List.mem_map.mp hm
    obtain ⟨p2, c2⟩ := pc
    have hce : c2 = c := hinj he
    subst hce
    exact ⟨p2, hpc⟩
  · rintro ⟨p, hp⟩
    exact List.mem_map.mpr ⟨(p, c), hp, rfl⟩

/-- C8 witness: after adding x from p1 under the identity hash, x is seen. -/
theorem c8_witness :
    ContentDeduplicator.is_seen id (ContentDeduplicator.runAdds id [("p1", "x")]) "x"
      = true :=
  (c8_is_seen_iff id (fun _ _ hab => hab) [("p1", "x")] "x").mpr ⟨"p1", by decide⟩

/-- Lookup of the erased name fails after filtering its entries out. -/
theorem alistGet_filter_ne (name : String) (l : List (String × BundleState)) :
    alistGet name (l.filter (fun e => e.1 != name)) = none := by
  induction l with
  | nil => rfl
  | cons e rest ih =>
    by_cases he : e.1 = name
    · simp [List.filter, he, ih]
    · have hb : (e.1 != name) = true := bne_iff_ne.mpr he
      simp [List.filter, hb, alistGet, he, ih]

/-- A name absent from the graph stays absent through one child-cleanup
step. -/
theorem pruneIncludedBy_get_none (name : String) (acc : List (String × BundleState))
    (c k : String) (hk : alistGet k acc = none) :
    alistGet k (BundleRegistry.pruneIncludedBy name acc c) = none := by
  unfold BundleRegistry.pruneIncludedBy
  cases hc : alistGet c acc with
  | none => exact hk
  | some cst =>
    by_cases he : c = k
    · subst he
      rw [hc] at hk
      cases hk
    · rw [alistGet_set_ne he]
      exact hk

/-- A name absent from the graph stays absent through one parent-cleanup
step. -/
theorem pruneIncludes_get_none (name : String) (acc : List (String × BundleState))
    (c k : String) (hk : alistGet k acc = none) :
    alistGet k (BundleRegistry.pruneIncludes name acc c) = none := by
  unfold BundleRegistry.pruneIncludes
  cases hc : alistGet c acc with
  | none => exact hk
  | some pst =>
    by_cases he : c = k
    · subst he
      rw [hc] at hk
      cases hk
    · rw [alistGet_set_ne he]
      exact hk

/-- A name absent from the graph stays absent through the child-cleanup
fold. -/
theorem foldl_pruneIncludedBy_get_none (name k : String) :
    ∀ (l : List String) (acc : List (String × BundleState)),
      alistGet k acc = none →
      alistGet k (l.foldl (BundleRegistry.pruneIncludedBy name) acc) = none
  | [], _, hk => hk
  | c :: rest, acc, hk => by
    rw [List.foldl_cons]
    exact foldl_pruneIncludedBy_get_none name k rest _
      (pruneIncludedBy_get_none name acc c k hk)

/-- A name absent from the graph stays absent through the parent-cleanup
fold. -/
theorem foldl_pruneIncludes_get_none (name k : String) :
    ∀ (l : List String) (acc : List (String × BundleState)),
      alistGet k acc = none →
      alistGet k (l.foldl (BundleRegistry.pruneIncludes name) acc) = none
  | [], _, hk => hk
  | c :: rest, acc, hk => by
    rw [List.foldl_cons]
    exact foldl_pruneIncludes_get_none name k rest _
      (pruneIncludes_get_none name acc c k hk)

/-- One child-cleanup step establishes (for its own child) and preserves the
freedom of included_by lists from the unregistered name. -/
theorem pruneIncludedBy_prop (name : String) (acc : List (String × BundleState))
    (c k : String)
    (hor : k = c ∨ ∀ v, alistGet k acc = some v → name ∉ v.included_by) :
    ∀ v, alistGet k (BundleRegistry.pruneIncludedBy name acc c) = some v →
      name ∉ v.included_by := by
  intro v hv
  unfold BundleRegistry.pruneIncludedBy at hv
  cases hc : alistGet c acc with
  | none =>
    simp only [hc] at hv
    rcases hor with rfl | hp
    · rw [hv] at hc
      cases hc
    · exact hp v hv
  | some cst =>
    simp only [hc] at hv
    by_cases he : c = k
    · subst he
      rw [alistGet_set_self] at hv
      injection hv with hv2
      subst hv2
      intro hmem
      rw [List.mem_filter] at hmem
      exact absurd hmem.2 (by simp)
    · rw [alistGet_set_ne he] at hv
      rcases hor with rfl | hp
      · exact absurd rfl (fun hh => he hh.symm)
      · exact hp v hv

/-- One parent-cleanup step establishes (for its own parent) and preserves
the freedom of includes lists from the unregistered name. -/
theorem pruneIncludes_prop (name : String) (acc : List (String × BundleState))
    (c k : String)
    (hor : k = c ∨ ∀ v, alistGet k acc = some v → name ∉ v.includes) :
    ∀ v, alistGet k (BundleRegistry.pruneIncludes name acc c) = some v →
      name ∉ v.includes := by
  intro v hv
  unfold BundleRegistry.pruneIncludes at hv
  cases hc : alistGet c acc with
  | none =>
    simp only [hc] at hv
    rcases hor with rfl | hp
    · rw [hv] at hc
      cases hc
    · exact hp v hv
  | some pst =>
    simp only [hc] at hv
    by_cases he : c = k
    · subst he
      rw [alistGet_set_self] at hv
      injection hv with hv2
      subst hv2
      intro hmem
      rw [List.mem_filter] at hmem
      exact absurd hmem.2 (by simp)
    · rw [alistGet_set_ne he] at hv
      rcases hor with rfl | hp
      · exact absurd rfl (fun hh => he hh.symm)
      · exact hp v hv

/-- The child-cleanup fold scrubs the unregistered name from the included_by
list of every listed child that remains registered. -/
theorem foldl_pruneIncludedBy_prop (name : String) :
    ∀ (l : List String) (acc : List (String × BundleState)) (k : String),
      (k ∈ l ∨ ∀ v, alistGet k acc = some v → name ∉ v.included_by) →
      ∀ v, alistGet k (l.foldl (BundleRegistry.pruneIncludedBy name) acc) = some v →
        name ∉ v.included_by
  | [], acc, k, hor, v, hv => by
    rcases hor with hk | hp
    · exact absurd hk (List.not_mem_nil k)
    · exact hp v hv
  | c :: rest, acc, k, hor, v, hv => by
    rw [List.foldl_cons] at hv
    refine foldl_pruneIncludedBy_prop name rest
      (BundleRegistry.pruneIncludedBy name acc c) k ?_ v hv
    rcases hor with hk | hp
    · cases List.mem_cons.mp hk with
      | inl hke => exact Or.inr (pruneIncludedBy_prop name acc c k (Or.inl hke))
      | inr hk2 => exact Or.inl hk2
    · exact Or.inr (pruneIncludedBy_prop name acc c k (Or.inr hp))

/-- The parent-cleanup fold scrubs the unregistered name from the includes
list of every listed parent that remains registered. -/
theorem foldl_pruneIncludes_prop (name : String) :
    ∀ (l : List String) (acc : List (String × BundleState)) (k : String),
      (k ∈ l ∨ ∀ v, alistGet k acc = some v → name ∉ v.includes) →
      ∀ v, alistGet k (l.foldl (BundleRegistry.pruneIncludes name) acc) = some v →
        name ∉ v.includes
  | [], acc, k, hor, v, hv => by
    rcases hor with hk | hp
    · exact absurd hk (List.not_mem_nil k)
    · exact hp v hv
  | c :: rest, acc, k, hor, v, hv => by
    rw [List.foldl_cons] at hv
    refine foldl_pruneIncludes_prop name rest
      (BundleRegistry.pruneIncludes name acc c) k ?_ v hv
    rcases hor with hk | hp
    · cases List.mem_cons.mp hk with
      | inl hke => exact Or.inr (pruneIncludes_prop name acc c k (Or.inl hke))
      | inr hk2 => exact Or.inl hk2
    · exact Or.inr (pruneIncludes_prop name acc c k (Or.inr hp))

/-- The parent-cleanup fold never touches included_by lists, so their
freedom from the unregistered name survives it. -/
theorem foldl_pruneIncludes_keeps (name : String) :
    ∀ (l : List String) (acc : List (String × BundleState)) (k : String),
      (∀ v, alistGet k acc = some v → name ∉ v.included_by) →
      ∀ v, alistGet k (l.foldl (BundleRegistry.pruneIncludes name) acc) = some v →
        name ∉ v.included_by
  | [], _, _, hp, v, hv => hp v hv
  | c :: rest, acc, k, hp, v, hv => by
    rw [List.foldl_cons] at hv
    refine foldl_pruneIncludes_keeps name rest
      (BundleRegistry.pruneIncludes name acc c) k ?_ v hv
    intro w hw
    unfold BundleRegistry.pruneIncludes at hw
    cases hc : alistGet c acc with
    | none =>
      simp only [hc] at hw
      exact hp w hw
    | some pst =>
      simp only [hc] at hw
      by_cases he : c = k
      · subst he
        rw [alistGet_set_self] at hw
        injection hw with hw2
        subst hw2
        exact hp pst hc
      · rw [alistGet_set_ne he] at hw
        exact hp w hw

/-- C3: unregister of a missing name returns false with the registry
untouched (the operation is total, so no error is possible); unregister of
a registered name returns true, removes that name from the graph, and
scrubs it from the included_by list of every still-registered listed child
and from the includes list of every still-registered listed parent,
tolerating relationships populated on only one side. -/
theorem c3_unregister_cleanup (reg : BundleRegistry) (name : String) :
    (alistGet name reg.states = none →
      BundleRegistry.unregister reg name = (false, reg))
    ∧ ∀ st, alistGet name reg.states = some st →
        (BundleRegistry.unregister reg name).1 = true
        ∧ alistGet name (BundleRegistry.unregister reg name).2.states = none
        ∧ (∀ child ∈ st.includes, ∀ cst,
            alistGet child (BundleRegistry.unregister reg name).2.states = some cst →
              name ∉ cst.included_by)
        ∧ (∀ par ∈ st.included_by, ∀ pst,
            alistGet par (BundleRegistry.unregister reg name).2.states = some pst →
              name ∉ pst.includes) := by
  constructor
  · intro hn
    simp [BundleRegistry.unregister, hn]
  · intro st hst
    have hu : BundleRegistry.unregister reg name =
        (true, ⟨st.included_by.foldl (BundleRegistry.pruneIncludes name)
          (st.includes.foldl (BundleRegistry.pruneIncludedBy name)
            (reg.states.filter (fun e => e.1 != name)))⟩) := by
      simp [BundleRegistry.unregister, hst]
    rw [hu]
    refine ⟨rfl, ?_, ?_, ?_⟩
    · exact foldl_pruneIncludes_get_none name name st.included_by _
        (foldl_pruneIncludedBy_get_none name name st.includes _
          (alistGet_filter_ne name reg.states))
    · intro child hchild cst hcst
      exact foldl_pruneIncludes_keeps name st.included_by _ child
        (foldl_pruneIncludedBy_prop name st.includes _ child (Or.inl hchild)) cst hcst
    · intro par hpar pst hpst
      exact foldl_pruneIncludes_prop name st.included_by _ par (Or.inl hpar) pst hpst

/-- C3 witness: unregistering the parent of the fixture registry returns
true, removes it, and clears it from child-a's included_by list; and
unregistering a missing name returns false without error. -/
theorem c3_witness :
    (BundleRegistry.unregister regParent "parent").1 = true
    ∧ alistGet "parent" (BundleRegistry.unregister regParent "parent").2.states = none
    ∧ (∀ cst, alistGet "child-a" (BundleRegistry.unregister regParent "parent").2.states
        = some cst → "parent" ∉ cst.included_by)
    ∧ BundleRegistry.unregister regParent "missing" = (false, regParent) := by
  have hc := (c3_unregister_cleanup regParent "parent").2
    { source := "src", includes := ["child-a", "child-b"], included_by := [] } rfl
  refine ⟨hc.1, hc.2.1, ?_, ?_⟩
  · intro cst hcst
    exact hc.2.2.1 "child-a" (by decide) cst hcst
  · exact (c3_unregister_cleanup regParent "missing").1 rfl

end AmplifierFoundation
